import Mathlib

/-!
A shallow embedding of `infostop/detect.py` (functions `best_partition` and
`run_infomap`) together with spec-level models of the `utils` collaborators
that the entry point calls (`group_time_distance`, `get_stationary_events`,
`general_pdist`); the community-detection oracle (`utils.infomap_communities`)
and the distance metric are kept abstract as function parameters, and the call
to `utils.compute_intervals` is represented by an output constructor carrying
its arguments.

Coordinates and thresholds are modelled as rationals.  A trajectory is a
rectangular matrix given as a list of rows (`List (List ℚ)`) together with its
column count.
-/

namespace Infostop

attribute [local semireducible] Rat.add Rat.sub Rat.mul Rat.inv

/-- Column `j` of a row, `numpy`-style positional access (rows of a valid
trajectory are rectangular, so the default is never reached on valid input). -/
def colv (j : ℕ) (x : List ℚ) : ℚ := x.getD j 0

/-- Column `j` of the matrix, i.e. `coords[:, j]`. -/
def col (j : ℕ) (rows : List (List ℚ)) : List ℚ := rows.map (colv j)

/-- `np.min` over a vector: `none` on an empty vector, where numpy raises
`ValueError` (zero-size array to reduction operation). -/
def npMin : List ℚ → Option ℚ
  | [] => none
  | x :: xs => some (xs.foldl min x)

/-- `np.max` over a vector: `none` on an empty vector, where numpy raises. -/
def npMax : List ℚ → Option ℚ
  | [] => none
  | x :: xs => some (xs.foldl max x)

/-- `np.all(coords[:-1, 2] <= coords[1:, 2])`: the timestamp column is
non-decreasing between consecutive rows. -/
def tsSorted : List (List ℚ) → Bool
  | [] => true
  | [_] => true
  | x :: y :: rest => decide (colv 2 x ≤ colv 2 y) && tsSorted (y :: rest)

/-- The fatal errors `best_partition` / `run_infomap` can raise.  The first
four are the assertion failures of `best_partition`; `valueErrorEmpty` is the
`ValueError` numpy raises when the latitude/longitude reduction runs on an
empty array; `insufficientGraph` is the `Exception` of `run_infomap` when the
proximity graph has no edge; `emptyPartitionMax` is the `ValueError` Python
raises when `max` runs on an empty partition. -/
inductive Err where
  | invalidShape
  | unorderedTimestamps
  | outOfRangeLat
  | outOfRangeLon
  | valueErrorEmpty
  | insufficientGraph
  | emptyPartitionMax
  deriving DecidableEq, Repr

/-- The assertion block of `best_partition` (detect.py lines 52-74): the
column count must be 2 or 3; with 3 columns the timestamps must be ordered;
when the distance function is `utils.haversine` (flag `isHav`), column 0 must
lie strictly inside (-90, 90) and column 1 strictly inside (-180, 180).
`np.min`/`np.max` on an empty column raise `ValueError`. -/
def checkAssertions (ncols : ℕ) (rows : List (List ℚ)) (isHav : Bool) :
    Except Err Unit :=
  if ¬ (ncols = 2 ∨ ncols = 3) then .error .invalidShape
  else if ncols = 3 ∧ tsSorted rows = false then .error .unorderedTimestamps
  else if isHav then
    match npMin (col 0 rows), npMax (col 0 rows),
          npMin (col 1 rows), npMax (col 1 rows) with
    | some mn0, some mx0, some mn1, some mx1 =>
      if ¬ (-90 < mn0 ∧ mx0 < 90) then .error .outOfRangeLat
      else if ¬ (-180 < mn1 ∧ mx1 < 180) then .error .outOfRangeLon
      else .ok ()
    | _, _, _, _ => .error .valueErrorEmpty
  else .ok ()

example : checkAssertions 4 [[0, 0, 0, 0]] false = .error .invalidShape := rfl

example : checkAssertions 2 [[0, 0], [1, 1]] true = .ok () := rfl

example : checkAssertions 3 [[0, 0, 5], [1, 1, 2]] false
    = .error .unorderedTimestamps := rfl

example : checkAssertions 2 [[95, 0]] true = .error .outOfRangeLat := rfl

example : checkAssertions 2 [] true = .error .valueErrorEmpty := rfl

/-! ### Segmentation and event aggregation (spec-modelled collaborators) -/

/-- Insert into an ascending list (insertion sort step). -/
def insSorted (x : ℚ) : List ℚ → List ℚ
  | [] => [x]
  | y :: ys => if x ≤ y then x :: y :: ys else y :: insSorted x ys

/-- Ascending insertion sort. -/
def sortQ (l : List ℚ) : List ℚ := l.foldr insSorted []

/-- Median of a vector, numpy style: middle element of the sorted vector for
odd length, average of the two middle elements for even length. -/
def median (l : List ℚ) : ℚ :=
  let s := sortQ l
  let n := s.length
  if n % 2 = 1 then s.getD (n / 2) 0
  else (s.getD (n / 2 - 1) 0 + s.getD (n / 2) 0) / 2

/-- The spatial part (first two columns) of a row. -/
def spatial (x : List ℚ) : List ℚ := [colv 0 x, colv 1 x]

/-- Per-dimension spatial median of a group of rows (the group's
representative / medoid). -/
def medianPoint (g : List (List ℚ)) : List ℚ :=
  [median (g.map (colv 0)), median (g.map (colv 1))]

/-- Whether the next sample `x` stays in the current group `cur`
(`Modelled from the spec`, §4.1): its distance to the running median anchor is
below `r1`, and, when timestamps exist, the gap to the previous sample does
not exceed `maxBetween`. -/
def staysWith (d : List ℚ → List ℚ → ℚ) (hasTime : Bool) (r1 maxBetween : ℚ)
    (cur : List (List ℚ)) (x : List ℚ) : Bool :=
  decide (d (medianPoint cur) (spatial x) < r1) &&
    (!hasTime || decide (colv 2 x - colv 2 (cur.getLastD []) ≤ maxBetween))

/-- Segmentation scan with a nonempty current group accumulator. -/
def segmentAux (d : List ℚ → List ℚ → ℚ) (hasTime : Bool) (r1 maxBetween : ℚ)
    (cur : List (List ℚ)) : List (List ℚ) → List (List (List ℚ))
  | [] => [cur]
  | x :: xs =>
      if staysWith d hasTime r1 maxBetween cur x then
        segmentAux d hasTime r1 maxBetween (cur ++ [x]) xs
      else cur :: segmentAux d hasTime r1 maxBetween [x] xs

/-- Split the trajectory into maximal runs of mutually stationary samples. -/
def segment (d : List ℚ → List ℚ → ℚ) (hasTime : Bool) (r1 maxBetween : ℚ) :
    List (List ℚ) → List (List (List ℚ))
  | [] => []
  | x :: xs => segmentAux d hasTime r1 maxBetween [x] xs

/-- A group is tagged stationary when, with timestamps present, its time span
reaches `minStay`; without timestamps every group is stationary. -/
def groupStationary (hasTime : Bool) (minStay : ℚ) (g : List (List ℚ)) : Bool :=
  !hasTime || decide (colv 2 (g.getLastD []) - colv 2 (g.headD []) ≥ minStay)

/-- Modelled from the spec: `utils.group_time_distance` (§4.1), which is not
part of the sources.  Scans the ordered trajectory, grouping consecutive
samples around a rolling median anchor, and tags each group
stationary/non-stationary by its time span. -/
def groupTimeDistance (d : List ℚ → List ℚ → ℚ) (hasTime : Bool)
    (r1 minStay maxBetween : ℚ) (rows : List (List ℚ)) :
    List (List (List ℚ) × Bool) :=
  (segment d hasTime r1 maxBetween rows).map
    (fun g => (g, groupStationary hasTime minStay g))

/-- Recursion for `getStationaryEvents`: `k` is the next event index. -/
def gseAux (minSize : ℕ) (k : ℕ) :
    List (List (List ℚ) × Bool) → List (List ℚ) × List ℤ
  | [] => ([], [])
  | (g, stat) :: gs =>
      if stat ∧ minSize ≤ g.length then
        let rest := gseAux minSize (k + 1) gs
        (medianPoint g :: rest.1, List.replicate g.length (k : ℤ) ++ rest.2)
      else
        let rest := gseAux minSize k gs
        (rest.1, List.replicate g.length (-1) ++ rest.2)

/-- Modelled from the spec: `utils.get_stationary_events` (§4.2), which is not
part of the sources.  Keeps each stationary group of size at least `minSize`
as one event (its spatial median), indexing events densely from 0 in
discovery order, and builds the total EventMap sending every sample of a
retained group to its event index and every other sample to the sentinel
`-1`. -/
def getStationaryEvents (groups : List (List (List ℚ) × Bool)) (minSize : ℕ) :
    List (List ℚ) × List ℤ :=
  gseAux minSize 0 groups

/-! ### Proximity graph (run_infomap, detect.py lines 94-117) -/

/-- Entry `(i, j)` of the matrix `D`: `np.zeros((c, c)) * np.nan` has every
entry NaN (`none`); `D[np.triu_indices(c, 1)] = pairwise_dist` fills exactly
the strict upper triangle with the pairwise distances (`utils.general_pdist`
produces them in the same row-major upper-triangular order as
`np.triu_indices`).  Entries on or below the diagonal stay NaN. -/
def Dmat (c : ℕ) (dist : ℕ → ℕ → ℚ) (i j : ℕ) : Option ℚ :=
  if i < j ∧ j < c then some (dist i j) else none

/-- A NaN-aware strict comparison: `NaN < r` is `False` in numpy. -/
def nanLt : Option ℚ → ℚ → Bool
  | some x, r => decide (x < r)
  | none, _ => false

/-- `np.column_stack(np.where(D < r2))`: the index pairs whose `D` entry
compares below `r2`, scanned in row-major order. -/
def edgesOf (c : ℕ) (dist : ℕ → ℕ → ℚ) (r2 : ℚ) : List (ℕ × ℕ) :=
  (List.range c).flatMap
    (fun i => ((List.range c).filter (fun j => nanLt (Dmat c dist i j) r2)).map
      (fun j => (i, j)))

/-- `edges.flatten()` of the `(k, 2)` edge array, row-major. -/
def flattenPairs (edges : List (ℕ × ℕ)) : List ℕ :=
  edges.flatMap (fun p => [p.1, p.2])

/-- Insert into an ascending duplicate-free list. -/
def insUnique (x : ℕ) : List ℕ → List ℕ
  | [] => [x]
  | y :: ys =>
      if x < y then x :: y :: ys
      else if x = y then y :: ys
      else y :: insUnique x ys

/-- `np.unique`: sorted distinct values. -/
def npUnique (l : List ℕ) : List ℕ := l.foldr insUnique []

/-- The nodes of the proximity graph: endpoints of some edge
(`np.unique(edges.flatten())`). -/
def nodesOf (edges : List (ℕ × ℕ)) : List ℕ := npUnique (flattenPairs edges)

/-- The set `set(list(range(c))).difference(set(nodes))` — the event indices
touching no edge — listed canonically in ascending order.  CPython iterates a
set in a hash-table order that need not be ascending (the set `{2, 9}` built
by this difference iterates as `9, 2`), so this list fixes the membership of
the set, not the program's iteration order; where the iteration order
matters, it is an explicit parameter (`updatedPartitionIter`). -/
def singletonNodes (c : ℕ) (nodes : List ℕ) : List ℕ :=
  (List.range c).filter (fun n => !(decide (n ∈ nodes)))

/-! ### Partition update and label projection (detect.py lines 122-145) -/

/-- Python `dict.update`: entries of `q` override entries of `p` with the same
key; lookups are modelled by first match in the association list. -/
def dictUpdate (p q : List (ℕ × ℕ)) : List (ℕ × ℕ) :=
  p.filter (fun kv => (q.lookup kv.1).isNone) ++ q

/-- Python `max` over a list: raises `ValueError` (here `none`) on empty. -/
def pyMaxNat : List ℕ → Option ℕ
  | [] => none
  | x :: xs => some (xs.foldl max x)

/-- `partition.update(dict(zip(singleton_nodes, range(max_label+1, ...))))`
with the iteration order of the set `singleton_nodes` made explicit: `zip`
consumes the set in CPython's implementation-defined hash-table order `iter`,
and the `k`-th iterated singleton receives the fresh id `m + 1 + k`, where
`m` is the maximum id the oracle assigned.  The program guarantees of `iter`
only that it enumerates the singleton set exactly once. -/
def updatedPartitionIter (part : List (ℕ × ℕ)) (iter : List ℕ) (m : ℕ) :
    List (ℕ × ℕ) :=
  dictUpdate part (iter.zip (List.range' (m + 1) iter.length))

/-- The singleton update as used in the pipeline embedding, instantiated with
the canonical ascending listing of the singleton set.  Every property proved
about the pipeline downstream of this update is insensitive to which
enumeration of the set is chosen; the order-sensitive analysis is stated over
`updatedPartitionIter` with the order free. -/
def updatedPartition (part : List (ℕ × ℕ)) (c : ℕ) (nodes : List ℕ) (m : ℕ) :
    List (ℕ × ℕ) :=
  updatedPartitionIter part (singletonNodes c nodes) m

/-- `[partition[n] if n in partition else -1 for n in range(c)]`. -/
def eventLabels (c : ℕ) (part : List (ℕ × ℕ)) : List ℤ :=
  (List.range c).map (fun n =>
    match part.lookup n with
    | some v => (v : ℤ)
    | none => -1)

/-- Python list indexing with negative wrap-around (`labels[i]` with `i`
possibly `-1`); indices out of `[-len, len)` raise `IndexError` in Python and
default to 0 here — valid EventMap values lie in `[-1, len)` and never reach
the default. -/
def pyGet (xs : List ℤ) (i : ℤ) : ℤ :=
  if i < 0 then xs.getD (xs.length - (-i).toNat) 0 else xs.getD i.toNat 0

/-- `labels += [-1]; np.array([labels[i] for i in event_map])`: project event
labels onto samples through the EventMap, sending the sentinel `-1` to the
appended trailing `-1`. -/
def coordLabels (labels : List ℤ) (eventMap : List ℤ) : List ℤ :=
  eventMap.map (pyGet (labels ++ [-1]))

/-- `np.hstack([coords, times.reshape(-1, 1)])` with
`times = np.array(list(range(0, len(coords))))`: append the ordinal index of
each row as a synthesized timestamp column. -/
def hstackTimes (rows : List (List ℚ)) : List (List ℚ) :=
  rows.enum.map (fun p => p.2 ++ [(p.1 : ℚ)])

/-- The results `run_infomap` can return: the compact per-event label vector
(medoid mode), the per-sample label vector, or a call to the external
`utils.compute_intervals` represented by its arguments. -/
inductive Output where
  | medoidLabels (ls : List ℤ)
  | sampleLabels (ls : List ℤ)
  | intervalsCall (rows : List (List ℚ)) (ls : List ℤ) (maxTimeBetween : ℚ)
  deriving DecidableEq, Repr

/-- The tail of `run_infomap` after the partition is final: build the event
label vector, short-circuit in medoid mode, project to samples, and either
return the sample labels or hand coordinates (with a synthesized timestamp
column when there was none) to `utils.compute_intervals`. -/
def finishLabels (part : List (ℕ × ℕ)) (c : ℕ) (eventMap : List ℤ)
    (rows : List (List ℚ)) (ncols : ℕ)
    (returnMedoid returnIntervals : Bool) (maxTimeBetween : ℚ) : Output :=
  if returnMedoid then .medoidLabels (eventLabels c part)
  else
    if returnIntervals then
      if ncols = 2 then
        .intervalsCall (hstackTimes rows) (coordLabels (eventLabels c part) eventMap)
          maxTimeBetween
      else
        .intervalsCall rows (coordLabels (eventLabels c part) eventMap)
          maxTimeBetween
    else .sampleLabels (coordLabels (eventLabels c part) eventMap)

/-- `run_infomap` (detect.py lines 91-153).  `oracle` abstracts
`utils.infomap_communities`; `d` abstracts the distance function used for the
pairwise distances between the stationary-event representatives. -/
def runInfomap (oracle : List ℕ → List (ℕ × ℕ) → List (ℕ × ℕ)) (r2 : ℚ)
    (rows : List (List ℚ)) (ncols : ℕ) (stopEvents : List (List ℚ))
    (d : List ℚ → List ℚ → ℚ) (eventMap : List ℤ)
    (labelSingleton returnMedoid returnIntervals : Bool)
    (maxTimeBetween : ℚ) : Except Err Output :=
  let c := stopEvents.length
  let dist := fun i j => d (stopEvents.getD i []) (stopEvents.getD j [])
  let edges := edgesOf c dist r2
  let nodes := nodesOf edges
  if edges.length < 1 then .error .insufficientGraph
  else
    let part := oracle nodes edges
    if labelSingleton then
      match pyMaxNat (part.map Prod.snd) with
      | none => .error .emptyPartitionMax
      | some m =>
          .ok (finishLabels (updatedPartition part c nodes m) c eventMap rows
            ncols returnMedoid returnIntervals maxTimeBetween)
    else
      .ok (finishLabels part c eventMap rows ncols returnMedoid
        returnIntervals maxTimeBetween)

/-- `best_partition` (detect.py lines 4-88): run the assertions, segment the
trajectory, reduce to stationary events, and call `run_infomap`.  `isHav`
models the `distance_function == utils.haversine` identity test. -/
def bestPartition (oracle : List ℕ → List (ℕ × ℕ) → List (ℕ × ℕ))
    (rows : List (List ℚ)) (ncols : ℕ) (r1 r2 : ℚ)
    (returnMedoid labelSingleton : Bool) (minStay maxBetween : ℚ)
    (isHav : Bool) (d : List ℚ → List ℚ → ℚ)
    (returnIntervals : Bool) (minSize : ℕ) : Except Err Output :=
  match checkAssertions ncols rows isHav with
  | .error e => .error e
  | .ok _ =>
      let groups := groupTimeDistance d (ncols = 3) r1 minStay maxBetween rows
      let se := getStationaryEvents groups minSize
      runInfomap oracle r2 rows ncols se.1 d se.2 labelSingleton returnMedoid
        returnIntervals maxBetween

/-! ### Concrete instances used in sanity checks and witnesses -/

/-- Absolute value written with an explicit test (kernel-evaluable). -/
def absQ (x : ℚ) : ℚ := if x < 0 then -x else x

/-- A concrete planar distance (Manhattan) standing in for the abstract
metric parameter in concrete evaluations. -/
def dTest (p q : List ℚ) : ℚ :=
  absQ (colv 0 p - colv 0 q) + absQ (colv 1 p - colv 1 q)

/-- A concrete deterministic oracle for concrete evaluations: every connected
node goes to community 0. -/
def oracleTest (nodes : List ℕ) (_ : List (ℕ × ℕ)) : List (ℕ × ℕ) :=
  nodes.map (fun n => (n, 0))

/-- Six planar samples forming two tight clusters 20 apart. -/
def rowsTest : List (List ℚ) :=
  [[0, 0], [0, 0], [0, 0], [10, 10], [10, 10], [10, 10]]

example :
    getStationaryEvents
      (groupTimeDistance dTest false 1 300 86400 rowsTest) 2
    = ([[0, 0], [10, 10]], [0, 0, 0, 1, 1, 1]) := rfl

example :
    bestPartition oracleTest rowsTest 2 1 21 false false 300 86400 false dTest
      false 2 = .ok (.sampleLabels [0, 0, 0, 0, 0, 0]) := rfl

/-! ### Length preservation through the pipeline -/

theorem segmentAux_sizes (d : List ℚ → List ℚ → ℚ) (ht : Bool) (r1 mb : ℚ)
    (rest : List (List ℚ)) : ∀ cur,
    ((segmentAux d ht r1 mb cur rest).map List.length).sum
      = cur.length + rest.length := by
  induction rest with
  | nil => intro cur; simp [segmentAux]
  | cons x xs ih =>
      intro cur
      simp only [segmentAux]
      split
      · rw [ih]; simp; omega
      · simp only [List.map_cons, List.sum_cons, ih]; simp; omega

theorem segment_sizes (d : List ℚ → List ℚ → ℚ) (ht : Bool) (r1 mb : ℚ)
    (rows : List (List ℚ)) :
    ((segment d ht r1 mb rows).map List.length).sum = rows.length := by
  cases rows with
  | nil => simp [segment]
  | cons x xs => simp [segment, segmentAux_sizes]; omega

theorem gseAux_map_length (ms : ℕ) (gs : List (List (List ℚ) × Bool)) :
    ∀ k, (gseAux ms k gs).2.length = ((gs.map (fun g => g.1.length)).sum) := by
  induction gs with
  | nil => intro k; simp [gseAux]
  | cons g gs ih =>
      intro k
      simp only [gseAux]
      split
      · simp [ih]
      · simp [ih]

theorem eventMap_length (d : List ℚ → List ℚ → ℚ) (ht : Bool)
    (r1 mstay mb : ℚ) (rows : List (List ℚ)) (ms : ℕ) :
    (getStationaryEvents (groupTimeDistance d ht r1 mstay mb rows) ms).2.length
      = rows.length := by
  have hmap : (groupTimeDistance d ht r1 mstay mb rows).map (fun g => g.1.length)
      = (segment d ht r1 mb rows).map List.length := by
    simp [groupTimeDistance]
  rw [getStationaryEvents, gseAux_map_length, hmap, segment_sizes]

theorem coordLabels_length (labels : List ℤ) (eventMap : List ℤ) :
    (coordLabels labels eventMap).length = eventMap.length := by
  simp [coordLabels]

/-- Every successful `run_infomap` result is `finishLabels` of some final
partition. -/
theorem runInfomap_ok_shape (oracle : List ℕ → List (ℕ × ℕ) → List (ℕ × ℕ))
    (r2 : ℚ) (rows : List (List ℚ)) (ncols : ℕ) (stopEvents : List (List ℚ))
    (d : List ℚ → List ℚ → ℚ) (eventMap : List ℤ)
    (lsing rm ri : Bool) (mtb : ℚ) (out : Output)
    (h : runInfomap oracle r2 rows ncols stopEvents d eventMap lsing rm ri mtb
      = .ok out) :
    ∃ part, out = finishLabels part stopEvents.length eventMap rows ncols rm ri
      mtb := by
  simp only [runInfomap] at h
  split at h
  · exact absurd h (by simp)
  · split at h
    · split at h
      · exact absurd h (by simp)
      · exact ⟨_, (Except.ok.inj h).symm⟩
    · exact ⟨_, (Except.ok.inj h).symm⟩

/-- C1: with `return_medoid_labels` and `return_intervals` both false, a
successful `best_partition` returns one label per input sample. -/
theorem best_partition_label_length
    (oracle : List ℕ → List (ℕ × ℕ) → List (ℕ × ℕ))
    (rows : List (List ℚ)) (ncols : ℕ) (r1 r2 : ℚ) (lsing : Bool)
    (minStay maxB : ℚ) (isHav : Bool) (d : List ℚ → List ℚ → ℚ) (minSize : ℕ)
    (out : Output)
    (h : bestPartition oracle rows ncols r1 r2 false lsing minStay maxB isHav d
      false minSize = .ok out) :
    ∃ v, out = .sampleLabels v ∧ v.length = rows.length := by
  simp only [bestPartition] at h
  split at h
  · exact absurd h (by simp)
  · obtain ⟨part, hp⟩ := runInfomap_ok_shape _ _ _ _ _ _ _ _ _ _ _ _ h
    rw [hp]
    simp only [finishLabels, Bool.false_eq_true, if_false]
    refine ⟨_, rfl, ?_⟩
    rw [coordLabels_length, eventMap_length]

theorem best_partition_label_length_witness :
    ∃ v, Output.sampleLabels [0, 0, 0, 0, 0, 0] = .sampleLabels v ∧
      v.length = rowsTest.length :=
  best_partition_label_length oracleTest rowsTest 2 1 21 false 300 86400
    false dTest 2 (.sampleLabels [0, 0, 0, 0, 0, 0]) rfl

/-! ### Label projection lemmas -/

theorem getD_append_left {α : Type} (l l' : List α) (dflt : α) :
    ∀ n, n < l.length → (l ++ l').getD n dflt = l.getD n dflt := by
  induction l with
  | nil => intro n hn; exact absurd hn (by simp)
  | cons x xs ih =>
      intro n hn
      cases n with
      | zero => rfl
      | succ k => exact ih k (by simpa using hn)

theorem getD_concat {α : Type} (l : List α) (a dflt : α) :
    (l ++ [a]).getD l.length dflt = a := by
  induction l with
  | nil => rfl
  | cons x xs ih => exact ih

theorem getD_map {α β : Type} (l : List α) (f : α → β) (dα : α) (dβ : β) :
    ∀ n, n < l.length → (l.map f).getD n dβ = f (l.getD n dα) := by
  induction l with
  | nil => intro n hn; exact absurd hn (by simp)
  | cons x xs ih =>
      intro n hn
      cases n with
      | zero => rfl
      | succ k => exact ih k (by simpa using hn)

theorem getD_mem_or_default {α : Type} (l : List α) (dflt : α) :
    ∀ n, l.getD n dflt = dflt ∨ l.getD n dflt ∈ l := by
  induction l with
  | nil => intro n; left; cases n <;> rfl
  | cons x xs ih =>
      intro n
      cases n with
      | zero => right; simp [List.getD]
      | succ k =>
          have hx : (x :: xs).getD (k + 1) dflt = xs.getD k dflt := by
            simp [List.getD]
          rcases ih k with h | h
          · left; rw [hx, h]
          · right; rw [hx]; exact List.mem_cons_of_mem x h

/-- The sentinel `-1` of the EventMap resolves, through Python negative
indexing into `labels + [-1]`, to the trailing `-1`. -/
theorem pyGet_sentinel (ls : List ℤ) : pyGet (ls ++ [-1]) (-1) = -1 := by
  have h1 : (ls ++ [-1]).length - (-(-1 : ℤ)).toNat = ls.length := by simp
  unfold pyGet
  rw [if_pos (by norm_num), h1, getD_concat]

/-- A valid event index resolves to the corresponding entry of the event
label vector, unaffected by the appended sentinel. -/
theorem pyGet_event (ls : List ℤ) (x : ℤ) (e : ℤ) (h0 : 0 ≤ e)
    (hlt : e.toNat < ls.length) : pyGet (ls ++ [x]) e = ls.getD e.toNat 0 := by
  simp only [pyGet]
  rw [if_neg (by omega), getD_append_left _ _ _ _ hlt]

theorem eventLabels_length (c : ℕ) (part : List (ℕ × ℕ)) :
    (eventLabels c part).length = c := by
  simp [eventLabels]

theorem eventLabels_getD (c : ℕ) (part : List (ℕ × ℕ)) (n : ℕ) (hn : n < c) :
    (eventLabels c part).getD n 0 =
      (match part.lookup n with
       | some v => (v : ℤ)
       | none => -1) := by
  unfold eventLabels
  rw [getD_map _ _ (0 : ℕ) _ n (by simpa using hn)]
  have : (List.range c).getD n 0 = n := by
    rw [List.getD_eq_getElem?_getD, List.getElem?_range hn]
    rfl
  rw [this]

theorem eventLabels_mem_nonneg (c : ℕ) (part : List (ℕ × ℕ)) :
    ∀ l ∈ eventLabels c part, l = -1 ∨ 0 ≤ l := by
  intro l hl
  simp only [eventLabels, List.mem_map] at hl
  obtain ⟨n, _, hn⟩ := hl
  cases hq : part.lookup n with
  | none => left; rw [← hn, hq]
  | some v => right; rw [← hn, hq]; positivity

/-- C2: the final label lookup is total: sentinel EventMap entries resolve to
the outlier `-1`, valid event indices resolve to their community when one is
assigned and to `-1` otherwise, and every output label is `-1` or
non-negative. -/
theorem label_lookup_resolution (part : List (ℕ × ℕ)) (c : ℕ)
    (eventMap : List ℤ) (s : ℕ) (hs : s < eventMap.length)
    (he : eventMap.getD s 0 = -1 ∨
      (0 ≤ eventMap.getD s 0 ∧ (eventMap.getD s 0).toNat < c)) :
    ((coordLabels (eventLabels c part) eventMap).getD s 0 =
      if eventMap.getD s 0 = -1 then -1
      else
        (match part.lookup (eventMap.getD s 0).toNat with
         | some v => (v : ℤ)
         | none => -1)) ∧
    (∀ l ∈ coordLabels (eventLabels c part) eventMap, l = -1 ∨ 0 ≤ l) := by
  constructor
  · unfold coordLabels
    rw [getD_map _ _ (0 : ℤ) _ s hs]
    rcases he with he | ⟨he0, helt⟩
    · rw [he, if_pos rfl, pyGet_sentinel]
    · rw [if_neg (by omega), pyGet_event _ _ _ he0 (by rwa [eventLabels_length]),
        eventLabels_getD _ _ _ helt]
  · intro l hl
    simp only [coordLabels, List.mem_map] at hl
    obtain ⟨e, _, hev⟩ := hl
    subst hev
    have key : pyGet (eventLabels c part ++ [-1]) e = 0 ∨
        pyGet (eventLabels c part ++ [-1]) e ∈ eventLabels c part ++ [-1] := by
      unfold pyGet
      split
      · exact getD_mem_or_default _ 0 _
      · exact getD_mem_or_default _ 0 _
    rcases key with h | h
    · right; rw [h]
    · rcases List.mem_append.mp h with h2 | h2
      · exact eventLabels_mem_nonneg c part _ h2
      · left; simpa using h2

theorem label_lookup_resolution_witness :
    ((coordLabels (eventLabels 2 [(0, 5)]) [-1, 0, 1]).getD 1 0 = 5) ∧
    (coordLabels (eventLabels 2 [(0, 5)]) [-1, 0, 1]).getD 0 0 = -1 ∧
    (∀ l ∈ coordLabels (eventLabels 2 [(0, 5)]) [-1, 0, 1], l = -1 ∨ 0 ≤ l) := by
  have h1 := label_lookup_resolution [(0, 5)] 2 [-1, 0, 1] 1 (by decide)
    (Or.inr (by decide))
  have h0 := label_lookup_resolution [(0, 5)] 2 [-1, 0, 1] 0 (by decide)
    (Or.inl (by decide))
  exact ⟨h1.1.trans (by decide), h0.1.trans (by decide), h1.2⟩

/-! ### Proximity graph lemmas -/

theorem mem_edgesOf (c : ℕ) (dist : ℕ → ℕ → ℚ) (r2 : ℚ) (i j : ℕ) :
    (i, j) ∈ edgesOf c dist r2 ↔ i < j ∧ j < c ∧ dist i j < r2 := by
  simp only [edgesOf, List.mem_flatMap, List.mem_map, List.mem_filter,
    List.mem_range]
  constructor
  · rintro ⟨a, _, j', ⟨_, hf⟩, hpair⟩
    obtain ⟨rfl, rfl⟩ := Prod.mk.inj hpair
    unfold nanLt Dmat at hf
    by_cases hc : a < j' ∧ j' < c
    · rw [if_pos hc] at hf
      exact ⟨hc.1, hc.2, by simpa using hf⟩
    · rw [if_neg hc] at hf
      exact absurd hf (by simp)
  · rintro ⟨hij, hjc, hd⟩
    refine ⟨i, lt_trans hij hjc, j, ⟨hjc, ?_⟩, rfl⟩
    unfold nanLt Dmat
    rw [if_pos ⟨hij, hjc⟩]
    simpa using hd

theorem edgesOf_eq_nil_iff (c : ℕ) (dist : ℕ → ℕ → ℚ) (r2 : ℚ) :
    edgesOf c dist r2 = [] ↔
      ∀ i j, i < j → j < c → ¬ dist i j < r2 := by
  rw [List.eq_nil_iff_forall_not_mem]
  constructor
  · intro h i j hij hjc hd
    exact h (i, j) ((mem_edgesOf c dist r2 i j).mpr ⟨hij, hjc, hd⟩)
  · rintro h ⟨i, j⟩ hmem
    obtain ⟨hij, hjc, hd⟩ := (mem_edgesOf c dist r2 i j).mp hmem
    exact h i j hij hjc hd

/-- C3: `run_infomap` raises the insufficient-graph error exactly when no
pair of stationary events lies strictly within `r2`; with at least one such
pair (and, in singleton mode, a nonempty oracle partition) it returns a
result. -/
theorem insufficient_graph_error
    (oracle : List ℕ → List (ℕ × ℕ) → List (ℕ × ℕ)) (r2 : ℚ)
    (rows : List (List ℚ)) (ncols : ℕ) (stopEvents : List (List ℚ))
    (d : List ℚ → List ℚ → ℚ) (eventMap : List ℤ)
    (lsing rm ri : Bool) (mtb : ℚ)
    (hor : lsing = true →
      oracle
        (nodesOf (edgesOf stopEvents.length
          (fun i j => d (stopEvents.getD i []) (stopEvents.getD j [])) r2))
        (edgesOf stopEvents.length
          (fun i j => d (stopEvents.getD i []) (stopEvents.getD j [])) r2)
        ≠ []) :
    (runInfomap oracle r2 rows ncols stopEvents d eventMap lsing rm ri mtb
        = .error .insufficientGraph ↔
      ∀ i j, i < j → j < stopEvents.length →
        ¬ d (stopEvents.getD i []) (stopEvents.getD j []) < r2) ∧
    ((∃ i j, i < j ∧ j < stopEvents.length ∧
        d (stopEvents.getD i []) (stopEvents.getD j []) < r2) →
      ∃ out, runInfomap oracle r2 rows ncols stopEvents d eventMap lsing rm ri
        mtb = .ok out) := by
  set es := edgesOf stopEvents.length
    (fun i j => d (stopEvents.getD i []) (stopEvents.getD j [])) r2 with hes
  have hA : es = [] →
      runInfomap oracle r2 rows ncols stopEvents d eventMap lsing rm ri mtb
        = .error .insufficientGraph := by
    intro hnil
    simp only [runInfomap, ← hes, hnil]
    simp
  have hB : es ≠ [] →
      ∃ out, runInfomap oracle r2 rows ncols stopEvents d eventMap lsing rm ri
        mtb = .ok out := by
    intro hne
    have hpos : 0 < es.length := List.length_pos.mpr hne
    simp only [runInfomap, ← hes]
    rw [if_neg (by omega)]
    by_cases hl : lsing = true
    · rw [if_pos hl]
      cases hq : oracle (nodesOf es) es with
      | nil => exact absurd hq (hor hl)
      | cons kv rest => exact ⟨_, rfl⟩
    · rw [if_neg hl]
      exact ⟨_, rfl⟩
  refine ⟨⟨?_, ?_⟩, ?_⟩
  · intro h
    apply (edgesOf_eq_nil_iff stopEvents.length _ r2).mp
    rw [← hes]
    by_contra hne
    obtain ⟨out, hout⟩ := hB hne
    rw [h] at hout
    exact absurd hout (by simp)
  · intro hforall
    exact hA (by rw [hes]; exact (edgesOf_eq_nil_iff _ _ _).mpr hforall)
  · rintro ⟨i, j, hij, hjc, hd⟩
    apply hB
    intro hnil
    have hmem : (i, j) ∈ edgesOf stopEvents.length
        (fun i j => d (stopEvents.getD i []) (stopEvents.getD j [])) r2 :=
      (mem_edgesOf _ _ _ i j).mpr ⟨hij, hjc, hd⟩
    rw [← hes, hnil] at hmem
    simp at hmem

theorem insufficient_graph_error_witness :
    ∃ out, runInfomap oracleTest 21 rowsTest 2 [[0, 0], [10, 10]] dTest
      [0, 0, 0, 1, 1, 1] true false false 86400 = .ok out := by
  have h := insufficient_graph_error oracleTest 21 rowsTest 2
    [[0, 0], [10, 10]] dTest [0, 0, 0, 1, 1, 1] true false false 86400
    (fun _ => by decide)
  exact h.2 ⟨0, 1, by norm_num, by norm_num, by decide⟩

theorem edgesOf_nodup (c : ℕ) (dist : ℕ → ℕ → ℚ) (r2 : ℚ) :
    (edgesOf c dist r2).Nodup := by
  unfold edgesOf
  rw [List.nodup_flatMap]
  constructor
  · intro i _
    exact ((List.nodup_range c).filter _).map (fun a b h => (Prod.mk.inj h).2)
  · apply List.Pairwise.imp ?_ (List.pairwise_lt_range c)
    intro a b hab
    simp only [Function.onFun]
    rw [List.disjoint_left]
    rintro p hpa hpb
    simp only [List.mem_map] at hpa hpb
    obtain ⟨_, _, rfl⟩ := hpa
    obtain ⟨_, _, heq⟩ := hpb
    exact absurd (Prod.mk.inj heq).1.symm (Nat.ne_of_lt hab)

/-- C5: the proximity graph's edges are exactly the unordered pairs `(i, j)`,
`i < j`, of event indices whose representatives lie strictly within `r2`;
there are no self-loops and no duplicates, and the diagonal of the distance
function is never consulted (any two distance functions agreeing on `i < j`
produce the same edge list). -/
theorem proximity_edges_exact (c : ℕ) (dist dist' : ℕ → ℕ → ℚ) (r2 : ℚ)
    (hoff : ∀ i j, i < j → dist i j = dist' i j) :
    (∀ i j, ((i, j) ∈ edgesOf c dist r2 ↔ i < j ∧ j < c ∧ dist i j < r2)) ∧
    (edgesOf c dist r2).Nodup ∧
    (∀ p ∈ edgesOf c dist r2, p.1 ≠ p.2) ∧
    edgesOf c dist r2 = edgesOf c dist' r2 := by
  refine ⟨fun i j => mem_edgesOf c dist r2 i j, edgesOf_nodup c dist r2,
    ?_, ?_⟩
  · rintro ⟨i, j⟩ hp
    obtain ⟨hij, _, _⟩ := (mem_edgesOf c dist r2 i j).mp hp
    exact Nat.ne_of_lt hij
  · unfold edgesOf
    congr 1
    funext i
    congr 1
    apply List.filter_congr
    intro j _
    unfold nanLt Dmat
    by_cases hc : i < j ∧ j < c
    · rw [if_pos hc, if_pos hc, hoff i j hc.1]
    · rw [if_neg hc, if_neg hc]

theorem proximity_edges_exact_witness :
    ((0, 1) ∈ edgesOf 2 (fun _ _ => (20 : ℚ)) 21 ↔
      0 < 1 ∧ 1 < 2 ∧ (20 : ℚ) < 21) ∧
    (edgesOf 2 (fun _ _ => (20 : ℚ)) 21).Nodup ∧
    (∀ p ∈ edgesOf 2 (fun _ _ => (20 : ℚ)) 21, p.1 ≠ p.2) ∧
    edgesOf 2 (fun _ _ => (20 : ℚ)) 21
      = edgesOf 2 (fun i j => if i = j then 999 else (20 : ℚ)) 21 := by
  have h := proximity_edges_exact 2 (fun _ _ => (20 : ℚ))
    (fun i j => if i = j then 999 else (20 : ℚ)) 21
    (fun i j hij => by simp [Nat.ne_of_lt hij])
  exact ⟨h.1 0 1, h.2.1, h.2.2.1, h.2.2.2⟩

/-! ### Singleton labeling lemmas -/

theorem foldl_max_spec (xs : List ℕ) :
    ∀ a, a ≤ xs.foldl max a ∧ ∀ v ∈ xs, v ≤ xs.foldl max a := by
  induction xs with
  | nil => intro a; simp
  | cons x xs ih =>
      intro a
      refine ⟨le_trans (le_max_left a x) (ih (max a x)).1, ?_⟩
      intro v hv
      rcases List.mem_cons.mp hv with rfl | hv
      · exact le_trans (le_max_right a v) (ih (max a v)).1
      · exact (ih (max a x)).2 v hv

theorem pyMaxNat_le (l : List ℕ) (m : ℕ) (h : pyMaxNat l = some m) :
    ∀ v ∈ l, v ≤ m := by
  cases l with
  | nil => exact absurd h (by simp [pyMaxNat])
  | cons x xs =>
      intro v hv
      obtain rfl : xs.foldl max x = m := by
        simpa [pyMaxNat] using h
      rcases List.mem_cons.mp hv with rfl | hv
      · exact (foldl_max_spec xs v).1
      · exact (foldl_max_spec xs x).2 v hv

theorem lookup_zip_range' (S : List ℕ) :
    ∀ a, S.Nodup →
      ∀ k (hk : k < S.length),
        (S.zip (List.range' a S.length)).lookup (S.get ⟨k, hk⟩)
          = some (a + k) := by
  induction S with
  | nil => intro a _ k hk; exact absurd hk (by simp)
  | cons s S ih =>
      intro a hnd k hk
      cases k with
      | zero => simp [List.lookup]
      | succ k =>
          have hk2 : k < S.length := by simpa using hk
          have hne : s ≠ S.get ⟨k, hk2⟩ := by
            intro hcontra
            exact (List.nodup_cons.mp hnd).1 (hcontra ▸ List.get_mem S _ _)
          have hbeq : (S.get ⟨k, hk2⟩ == s) = false :=
            beq_eq_false_iff_ne.mpr (Ne.symm hne)
          have hstep : ((s :: S).zip (List.range' a (s :: S).length)).lookup
              ((s :: S).get ⟨k + 1, hk⟩)
              = (S.zip (List.range' (a + 1) S.length)).lookup
                (S.get ⟨k, hk2⟩) := by
            simp only [List.length_cons, List.range', List.zip_cons_cons,
              List.lookup, List.get, hbeq]
            rfl
          rw [hstep, ih (a + 1) (List.nodup_cons.mp hnd).2 k hk2]
          congr 1
          omega

theorem dictUpdate_lookup_right (p q : List (ℕ × ℕ)) (x : ℕ)
    (h : (q.lookup x).isSome) : (dictUpdate p q).lookup x = q.lookup x := by
  induction p with
  | nil => simp [dictUpdate]
  | cons kv p ih =>
      obtain ⟨kx, kb⟩ := kv
      unfold dictUpdate at ih ⊢
      rw [List.filter_cons]
      split
      · rename_i hkeep
        have hkeep2 : (q.lookup kx).isNone = true := by simpa using hkeep
        have hne : (x == kx) = false := by
          apply beq_eq_false_iff_ne.mpr
          intro hcontra
          rw [← hcontra] at hkeep2
          rw [Option.isSome_iff_exists] at h
          obtain ⟨v, hv⟩ := h
          simp [hv] at hkeep2
        rw [List.cons_append]
        simp only [List.lookup, hne]
        exact ih
      · exact ih

theorem singletonNodes_nodup (c : ℕ) (nodes : List ℕ) :
    (singletonNodes c nodes).Nodup :=
  (List.nodup_range c).filter _

/-- C4 (amended): with `label_singleton` true, the singleton events are
assigned fresh community ids `m + 1, m + 2, ...` following the
implementation-defined iteration order of the singleton set — any `iter`
enumerating that set exactly once — rather than necessarily event-index
order; every singleton receives an id, the `k`-th iterated singleton gets
`m + 1 + k`, the fresh ids are pairwise distinct, and none collides with an
id the oracle produced. -/
theorem singleton_fresh_labels_any_order (part : List (ℕ × ℕ)) (c : ℕ)
    (nodes : List ℕ) (m : ℕ) (iter : List ℕ)
    (hm : pyMaxNat (part.map Prod.snd) = some m)
    (hperm : iter.Perm (singletonNodes c nodes)) :
    (∀ k (hk : k < iter.length),
      (updatedPartitionIter part iter m).lookup (iter.get ⟨k, hk⟩)
        = some (m + 1 + k)) ∧
    (∀ s ∈ singletonNodes c nodes, ∃ fresh,
      (updatedPartitionIter part iter m).lookup s = some fresh ∧ m < fresh) ∧
    (∀ k (hk : k < iter.length) (k' : ℕ) (hk' : k' < iter.length), k ≠ k' →
      (updatedPartitionIter part iter m).lookup (iter.get ⟨k, hk⟩) ≠
        (updatedPartitionIter part iter m).lookup (iter.get ⟨k', hk'⟩)) ∧
    (∀ s ∈ iter, ∀ fresh,
      (updatedPartitionIter part iter m).lookup s = some fresh →
      ∀ v ∈ part.map Prod.snd, fresh ≠ v) := by
  have hnd : iter.Nodup :=
    (List.Perm.nodup_iff hperm).mpr (singletonNodes_nodup c nodes)
  have hzip := lookup_zip_range' iter (m + 1) hnd
  have hmain : ∀ k (hk : k < iter.length),
      (updatedPartitionIter part iter m).lookup (iter.get ⟨k, hk⟩)
        = some (m + 1 + k) := by
    intro k hk
    unfold updatedPartitionIter
    rw [dictUpdate_lookup_right _ _ _ (by rw [hzip k hk]; rfl), hzip k hk]
  refine ⟨hmain, ?_, ?_, ?_⟩
  · intro s hs
    obtain ⟨⟨k, hk⟩, rfl⟩ := List.mem_iff_get.mp (hperm.mem_iff.mpr hs)
    exact ⟨m + 1 + k, hmain k hk, by omega⟩
  · intro k hk k' hk' hne
    rw [hmain k hk, hmain k' hk']
    intro hcontra
    have h2 := Option.some.inj hcontra
    exact hne (by omega)
  · intro s hs fresh hlook v hv
    obtain ⟨⟨k, hk⟩, rfl⟩ := List.mem_iff_get.mp hs
    rw [hmain k hk] at hlook
    obtain rfl : m + 1 + k = fresh := Option.some.inj hlook
    have := pyMaxNat_le _ _ hm v hv
    omega

theorem singleton_fresh_labels_any_order_witness :
    (updatedPartitionIter [(0, 0), (1, 0)] [9, 2] 0).lookup 9 = some 1 := by
  have h := singleton_fresh_labels_any_order [(0, 0), (1, 0)] 10
    [0, 1, 3, 4, 5, 6, 7, 8] 0 [9, 2] (by decide) (by decide)
  exact h.1 0 (by decide)

/-- An oracle partition over the eight connected events of the
counterexample graph, every one in community 0 (so the maximum assigned id
is 0). -/
def partCex : List (ℕ × ℕ) :=
  [(0, 0), (1, 0), (3, 0), (4, 0), (5, 0), (6, 0), (7, 0), (8, 0)]

/-- C4 counterexample: with ten events whose connected nodes are
`{0,1,3,4,5,6,7,8}`, the singleton set is `{2, 9}`, which CPython iterates
as `9, 2` (verified on CPython 3.11: `set(range(10)).difference(
{0,1,3,4,5,6,7,8})` yields 9 before 2).  Under that admissible iteration
order the program assigns event 9 the id `max+1` and event 2 the id `max+2`,
which differs from the event-index-order assignment the claim asserts
(event 2 would get `max+1`). -/
theorem singleton_order_counterexample :
    ([9, 2] : List ℕ).Perm (singletonNodes 10 [0, 1, 3, 4, 5, 6, 7, 8]) ∧
    (updatedPartitionIter partCex [9, 2] 0).lookup 9 = some 1 ∧
    (updatedPartitionIter partCex [9, 2] 0).lookup 2 = some 2 ∧
    (updatedPartitionIter partCex [9, 2] 0).lookup 2
      ≠ (updatedPartition partCex 10 [0, 1, 3, 4, 5, 6, 7, 8] 0).lookup 2 := by
  refine ⟨by decide, rfl, rfl, by decide⟩

/-! ### Precondition characterization -/

theorem foldl_min_spec (xs : List ℚ) :
    ∀ a, xs.foldl min a ≤ a ∧ (∀ x ∈ xs, xs.foldl min a ≤ x) ∧
      (xs.foldl min a = a ∨ xs.foldl min a ∈ xs) := by
  induction xs with
  | nil => intro a; exact ⟨le_refl a, by simp, Or.inl rfl⟩
  | cons x xs ih =>
      intro a
      have h := ih (min a x)
      have hfold : (x :: xs).foldl min a = xs.foldl min (min a x) := rfl
      refine ⟨le_trans h.1 (min_le_left a x), ?_, ?_⟩
      · intro y hy
        rcases List.mem_cons.mp hy with rfl | hy
        · exact le_trans h.1 (min_le_right a y)
        · exact h.2.1 y hy
      · rcases h.2.2 with heq | hmem
        · rcases le_total a x with hax | hxa
          · left; rw [hfold, heq, min_eq_left hax]
          · right; rw [hfold, heq, min_eq_right hxa]
            exact List.mem_cons_self x xs
        · right; rw [hfold]; exact List.mem_cons_of_mem x hmem

theorem foldl_maxq_spec (xs : List ℚ) :
    ∀ a, a ≤ xs.foldl max a ∧ (∀ x ∈ xs, x ≤ xs.foldl max a) ∧
      (xs.foldl max a = a ∨ xs.foldl max a ∈ xs) := by
  induction xs with
  | nil => intro a; exact ⟨le_refl a, by simp, Or.inl rfl⟩
  | cons x xs ih =>
      intro a
      have h := ih (max a x)
      have hfold : (x :: xs).foldl max a = xs.foldl max (max a x) := rfl
      refine ⟨le_trans (le_max_left a x) h.1, ?_, ?_⟩
      · intro y hy
        rcases List.mem_cons.mp hy with rfl | hy
        · exact le_trans (le_max_right a y) h.1
        · exact h.2.1 y hy
      · rcases h.2.2 with heq | hmem
        · rcases le_total x a with hxa | hax
          · left; rw [hfold, heq, max_eq_left hxa]
          · right; rw [hfold, heq, max_eq_right hax]
            exact List.mem_cons_self x xs
        · right; rw [hfold]; exact List.mem_cons_of_mem x hmem

theorem npMin_spec (l : List ℚ) (m : ℚ) (h : npMin l = some m) :
    m ∈ l ∧ ∀ x ∈ l, m ≤ x := by
  cases l with
  | nil => exact absurd h (by simp [npMin])
  | cons x xs =>
      obtain rfl : xs.foldl min x = m := by simpa [npMin] using h
      have hs := foldl_min_spec xs x
      constructor
      · rcases hs.2.2 with heq | hmem
        · rw [heq]; exact List.mem_cons_self x xs
        · exact List.mem_cons_of_mem x hmem
      · intro y hy
        rcases List.mem_cons.mp hy with rfl | hy
        · exact hs.1
        · exact hs.2.1 y hy

theorem npMax_spec (l : List ℚ) (m : ℚ) (h : npMax l = some m) :
    m ∈ l ∧ ∀ x ∈ l, x ≤ m := by
  cases l with
  | nil => exact absurd h (by simp [npMax])
  | cons x xs =>
      obtain rfl : xs.foldl max x = m := by simpa [npMax] using h
      have hs := foldl_maxq_spec xs x
      constructor
      · rcases hs.2.2 with heq | hmem
        · rw [heq]; exact List.mem_cons_self x xs
        · exact List.mem_cons_of_mem x hmem
      · intro y hy
        rcases List.mem_cons.mp hy with rfl | hy
        · exact hs.1
        · exact hs.2.1 y hy

theorem strict_bounds_iff (l : List ℚ) (lo hi mn mx : ℚ)
    (hmn : npMin l = some mn) (hmx : npMax l = some mx) :
    (lo < mn ∧ mx < hi) ↔ ∀ x ∈ l, lo < x ∧ x < hi := by
  obtain ⟨hmem, hle⟩ := npMin_spec l mn hmn
  obtain ⟨hmem2, hge⟩ := npMax_spec l mx hmx
  constructor
  · rintro ⟨h1, h2⟩ x hx
    exact ⟨lt_of_lt_of_le h1 (hle x hx), lt_of_le_of_lt (hge x hx) h2⟩
  · intro h
    exact ⟨(h mn hmem).1, (h mx hmem2).2⟩

/-- C6 (amended): the validation stage succeeds exactly when the column count
is 2 or 3, the timestamps (with 3 columns) are non-decreasing, and — under
the great-circle metric — the input is nonempty with column 0 strictly inside
(-90, 90) and column 1 strictly inside (-180, 180); a validation error is
returned by `best_partition` unchanged, with no output.  (The nonemptiness
condition under the great-circle metric is forced by the numpy reduction
raising on an empty column.) -/
theorem preconditions_characterization (ncols : ℕ) (rows : List (List ℚ))
    (isHav : Bool) (oracle : List ℕ → List (ℕ × ℕ) → List (ℕ × ℕ))
    (r1 r2 : ℚ) (rm lsing : Bool) (minStay maxB : ℚ)
    (d : List ℚ → List ℚ → ℚ) (ri : Bool) (minSize : ℕ) :
    (checkAssertions ncols rows isHav = .ok () ↔
      ((ncols = 2 ∨ ncols = 3) ∧
       (ncols = 3 → tsSorted rows = true) ∧
       (isHav = true → rows ≠ [] ∧
         (∀ x ∈ col 0 rows, -90 < x ∧ x < 90) ∧
         (∀ x ∈ col 1 rows, -180 < x ∧ x < 180)))) ∧
    (∀ e, checkAssertions ncols rows isHav = .error e →
      bestPartition oracle rows ncols r1 r2 rm lsing minStay maxB isHav d ri
        minSize = .error e) := by
  constructor
  · unfold checkAssertions
    by_cases h1 : ncols = 2 ∨ ncols = 3
    · rw [if_neg (not_not_intro h1)]
      by_cases h2 : ncols = 3 ∧ tsSorted rows = false
      · rw [if_pos h2]
        simp [h2.1, h2.2]
      · rw [if_neg h2]
        have hts : ncols = 3 → tsSorted rows = true := by
          intro hc3
          cases hv : tsSorted rows with
          | false => exact absurd ⟨hc3, hv⟩ h2
          | true => rfl
        by_cases h3 : isHav = true
        · rw [if_pos h3]
          by_cases hr : rows = []
          · subst hr
            simp [col, npMin, npMax, h3]
          · obtain ⟨r, rs, rfl⟩ := List.exists_cons_of_ne_nil hr
            have hbnd0 := strict_bounds_iff (col 0 (r :: rs)) (-90) 90 _ _
              rfl rfl
            have hbnd1 := strict_bounds_iff (col 1 (r :: rs)) (-180) 180 _ _
              rfl rfl
            simp only [col, List.map_cons, npMin, npMax]
            constructor
            · intro hok
              split_ifs at hok with hb0 hb1
              exact ⟨h1, hts, fun _ => ⟨by simp, hbnd0.mp hb0, hbnd1.mp hb1⟩⟩
            · rintro ⟨-, -, h3'⟩
              obtain ⟨-, hbound0, hbound1⟩ := h3' h3
              rw [if_neg (not_not_intro (hbnd0.mpr hbound0)),
                if_neg (not_not_intro (hbnd1.mpr hbound1))]
        · rw [if_neg h3]
          constructor
          · intro _
            exact ⟨h1, hts, fun habs => absurd habs h3⟩
          · intro _
            rfl
    · rw [if_pos h1]
      simp [h1]
  · intro e he
    unfold bestPartition
    rw [he]

theorem preconditions_counterexample :
    (2 = 2 ∨ 2 = 3) ∧
    tsSorted ([] : List (List ℚ)) = true ∧
    (∀ x ∈ col 0 ([] : List (List ℚ)), -90 < x ∧ x < 90) ∧
    (∀ x ∈ col 1 ([] : List (List ℚ)), -180 < x ∧ x < 180) ∧
    bestPartition oracleTest [] 2 10 10 false false 300 86400 true dTest
      false 2 = .error .valueErrorEmpty := by
  exact ⟨Or.inl rfl, rfl, by simp [col], by simp [col], rfl⟩

/-! ### Medoid mode, interval timestamps, determinism -/

/-- C7: with `return_medoid_labels` true, a successful run returns the
compact per-event label vector (one entry per stationary event), whatever the
value of `return_intervals` — medoid mode takes precedence and no interval
call is made. -/
theorem medoid_mode_precedence
    (oracle : List ℕ → List (ℕ × ℕ) → List (ℕ × ℕ)) (r2 : ℚ)
    (rows : List (List ℚ)) (ncols : ℕ) (stopEvents : List (List ℚ))
    (d : List ℚ → List ℚ → ℚ) (eventMap : List ℤ) (lsing ri : Bool)
    (mtb : ℚ) (out : Output)
    (h : runInfomap oracle r2 rows ncols stopEvents d eventMap lsing true ri
      mtb = .ok out) :
    ∃ ls, out = .medoidLabels ls ∧ ls.length = stopEvents.length := by
  obtain ⟨part, hp⟩ := runInfomap_ok_shape _ _ _ _ _ _ _ _ _ _ _ _ h
  rw [hp]
  unfold finishLabels
  rw [if_pos rfl]
  exact ⟨_, rfl, eventLabels_length _ _⟩

theorem medoid_mode_precedence_witness :
    ∃ ls, Output.medoidLabels [0, 0] = .medoidLabels ls ∧
      ls.length = ([[0, 0], [10, 10]] : List (List ℚ)).length := by
  exact medoid_mode_precedence oracleTest 21 rowsTest 2 [[0, 0], [10, 10]]
    dTest [0, 0, 0, 1, 1, 1] false true 86400 (.medoidLabels [0, 0]) rfl

theorem hstackTimes_length (rows : List (List ℚ)) :
    (hstackTimes rows).length = rows.length := by
  simp [hstackTimes]

theorem enumFrom_getD (rows : List (List ℚ)) :
    ∀ n i, i < rows.length →
      (List.enumFrom n rows).getD i (0, []) = (n + i, rows.getD i []) := by
  induction rows with
  | nil => intro n i hi; exact absurd hi (by simp)
  | cons r rs ih =>
      intro n i hi
      cases i with
      | zero => simp [List.enumFrom, List.getD]
      | succ k =>
          have : (List.enumFrom n (r :: rs)).getD (k + 1) (0, [])
              = (List.enumFrom (n + 1) rs).getD k (0, []) := rfl
          rw [this, ih (n + 1) k (by simpa using hi)]
          have : (r :: rs).getD (k + 1) [] = rs.getD k [] := rfl
          rw [this]
          congr 1
          omega

theorem hstackTimes_getD (rows : List (List ℚ)) (i : ℕ) (hi : i < rows.length) :
    (hstackTimes rows).getD i [] = rows.getD i [] ++ [(i : ℚ)] := by
  unfold hstackTimes List.enum
  rw [getD_map _ _ ((0, []) : ℕ × List ℚ) _ i (by simpa using hi),
    enumFrom_getD rows 0 i hi]
  simp

/-- C8: with `return_intervals` true, medoid mode off and a 2-column input, a
successful run hands `utils.compute_intervals` the coordinates with a
synthesized ordinal timestamp column `0, 1, ..., N-1` appended to each row. -/
theorem intervals_synthesized_times
    (oracle : List ℕ → List (ℕ × ℕ) → List (ℕ × ℕ)) (r2 : ℚ)
    (rows : List (List ℚ)) (stopEvents : List (List ℚ))
    (d : List ℚ → List ℚ → ℚ) (eventMap : List ℤ) (lsing : Bool)
    (mtb : ℚ) (out : Output)
    (h : runInfomap oracle r2 rows 2 stopEvents d eventMap lsing false true
      mtb = .ok out) :
    ∃ part, out = .intervalsCall (hstackTimes rows)
        (coordLabels (eventLabels stopEvents.length part) eventMap) mtb ∧
      (hstackTimes rows).length = rows.length ∧
      ∀ i, i < rows.length →
        (hstackTimes rows).getD i [] = rows.getD i [] ++ [(i : ℚ)] := by
  obtain ⟨part, hp⟩ := runInfomap_ok_shape _ _ _ _ _ _ _ _ _ _ _ _ h
  rw [hp]
  unfold finishLabels
  rw [if_neg (by simp), if_pos rfl, if_pos rfl]
  exact ⟨part, rfl, hstackTimes_length rows, fun i hi => hstackTimes_getD rows i hi⟩

theorem intervals_synthesized_times_witness :
    (hstackTimes rowsTest).length = rowsTest.length ∧
    ∀ i, i < rowsTest.length →
      (hstackTimes rowsTest).getD i [] = rowsTest.getD i [] ++ [(i : ℚ)] := by
  obtain ⟨part, hp, hlen, hrow⟩ := intervals_synthesized_times oracleTest 21
    rowsTest [[0, 0], [10, 10]] dTest [0, 0, 0, 1, 1, 1] false 86400
    (.intervalsCall (hstackTimes rowsTest)
      (coordLabels (eventLabels 2 [(0, 0), (1, 0)]) [0, 0, 0, 1, 1, 1])
      86400) rfl
  exact ⟨hlen, hrow⟩

/-- C9: `best_partition` is deterministic — two runs on the same input and
configuration, with oracles that agree on every (nodes, edges) input,
produce the same output. -/
theorem best_partition_deterministic
    (f g : List ℕ → List (ℕ × ℕ) → List (ℕ × ℕ))
    (hfg : ∀ ns es, f ns es = g ns es)
    (rows : List (List ℚ)) (ncols : ℕ) (r1 r2 : ℚ) (rm lsing : Bool)
    (minStay maxB : ℚ) (isHav : Bool) (d : List ℚ → List ℚ → ℚ)
    (ri : Bool) (minSize : ℕ) :
    bestPartition f rows ncols r1 r2 rm lsing minStay maxB isHav d ri minSize
      = bestPartition g rows ncols r1 r2 rm lsing minStay maxB isHav d ri
        minSize := by
  have hfun : f = g := funext fun ns => funext fun es => hfg ns es
  rw [hfun]

theorem best_partition_deterministic_witness :
    bestPartition oracleTest rowsTest 2 1 21 false false 300 86400 false dTest
      false 2
      = bestPartition (fun ns _ => ns.map (fun n => (n, 0))) rowsTest 2 1 21
        false false 300 86400 false dTest false 2 :=
  best_partition_deterministic oracleTest (fun ns _ => ns.map (fun n => (n, 0)))
    (fun _ _ => rfl) rowsTest 2 1 21 false false 300 86400 false dTest false 2

/-! ### Heap-passing model for the frame property

To state that `best_partition` never mutates the caller's coordinate array,
the same pipeline is re-expressed with the trajectory held in an explicit
store of arrays addressed by references: every numpy operation of the source
either reads the array or allocates a fresh one (`np.hstack`); no step writes
through an existing reference. -/

/-- A store of arrays; a reference is an index into the store. -/
def Heap : Type := List (List (List ℚ))

/-- Read the array behind a reference. -/
def hread (h : Heap) (r : ℕ) : List (List ℚ) := List.getD h r []

/-- Allocate a fresh array, returning the extended store and its
reference. -/
def halloc (h : Heap) (v : List (List ℚ)) : Heap × ℕ :=
  (List.append h [v], List.length h)

/-- Store-passing version of `finishLabels`: the interval branch for a
2-column input builds the timestamped matrix by `np.hstack`, a fresh
allocation, and passes the new array on. -/
def finishLabelsSt (part : List (ℕ × ℕ)) (c : ℕ) (eventMap : List ℤ)
    (h : Heap) (cref ncols : ℕ) (returnMedoid returnIntervals : Bool)
    (maxTimeBetween : ℚ) : Heap × Output :=
  if returnMedoid then (h, .medoidLabels (eventLabels c part))
  else
    if returnIntervals then
      if ncols = 2 then
        let al := halloc h (hstackTimes (hread h cref))
        (al.1, .intervalsCall (hread al.1 al.2)
          (coordLabels (eventLabels c part) eventMap) maxTimeBetween)
      else
        (h, .intervalsCall (hread h cref)
          (coordLabels (eventLabels c part) eventMap) maxTimeBetween)
    else (h, .sampleLabels (coordLabels (eventLabels c part) eventMap))

/-- Store-passing version of `run_infomap`. -/
def runInfomapSt (oracle : List ℕ → List (ℕ × ℕ) → List (ℕ × ℕ)) (r2 : ℚ)
    (h : Heap) (cref ncols : ℕ) (stopEvents : List (List ℚ))
    (d : List ℚ → List ℚ → ℚ) (eventMap : List ℤ)
    (labelSingleton returnMedoid returnIntervals : Bool)
    (maxTimeBetween : ℚ) : Heap × Except Err Output :=
  let c := stopEvents.length
  let dist := fun i j => d (stopEvents.getD i []) (stopEvents.getD j [])
  let edges := edgesOf c dist r2
  let nodes := nodesOf edges
  if edges.length < 1 then (h, .error .insufficientGraph)
  else
    let part := oracle nodes edges
    if labelSingleton then
      match pyMaxNat (part.map Prod.snd) with
      | none => (h, .error .emptyPartitionMax)
      | some m =>
          ((finishLabelsSt (updatedPartition part c nodes m) c eventMap h cref
              ncols returnMedoid returnIntervals maxTimeBetween).1,
           .ok (finishLabelsSt (updatedPartition part c nodes m) c eventMap h
              cref ncols returnMedoid returnIntervals maxTimeBetween).2)
    else
      ((finishLabelsSt part c eventMap h cref ncols returnMedoid
          returnIntervals maxTimeBetween).1,
       .ok (finishLabelsSt part c eventMap h cref ncols returnMedoid
          returnIntervals maxTimeBetween).2)

/-- Store-passing version of `best_partition`: the validation and the
segmentation only read the caller's array. -/
def bestPartitionSt (oracle : List ℕ → List (ℕ × ℕ) → List (ℕ × ℕ))
    (h : Heap) (cref ncols : ℕ) (r1 r2 : ℚ)
    (returnMedoid labelSingleton : Bool) (minStay maxBetween : ℚ)
    (isHav : Bool) (d : List ℚ → List ℚ → ℚ)
    (returnIntervals : Bool) (minSize : ℕ) : Heap × Except Err Output :=
  match checkAssertions ncols (hread h cref) isHav with
  | .error e => (h, .error e)
  | .ok _ =>
      let groups := groupTimeDistance d (ncols = 3) r1 minStay maxBetween
        (hread h cref)
      let se := getStationaryEvents groups minSize
      runInfomapSt oracle r2 h cref ncols se.1 d se.2 labelSingleton
        returnMedoid returnIntervals maxBetween

theorem hread_halloc_frame (h : Heap) (v : List (List ℚ)) (r : ℕ)
    (hr : r < List.length h) : hread (halloc h v).1 r = hread h r := by
  unfold halloc hread
  exact getD_append_left h [v] [] r hr

theorem finishLabelsSt_frame (part : List (ℕ × ℕ)) (c : ℕ)
    (eventMap : List ℤ) (h : Heap) (cref ncols : ℕ) (rm ri : Bool) (mtb : ℚ)
    (r : ℕ) (hr : r < List.length h) :
    hread (finishLabelsSt part c eventMap h cref ncols rm ri mtb).1 r
      = hread h r := by
  unfold finishLabelsSt
  split
  · rfl
  · split
    · split
      · exact hread_halloc_frame h _ r hr
      · rfl
    · rfl

theorem finishLabelsSt_agrees (part : List (ℕ × ℕ)) (c : ℕ)
    (eventMap : List ℤ) (h : Heap) (cref ncols : ℕ) (rm ri : Bool)
    (mtb : ℚ) :
    (finishLabelsSt part c eventMap h cref ncols rm ri mtb).2
      = finishLabels part c eventMap (hread h cref) ncols rm ri mtb := by
  unfold finishLabelsSt finishLabels
  split
  · rfl
  · split
    · split
      · have : hread (halloc h (hstackTimes (hread h cref))).1
            (halloc h (hstackTimes (hread h cref))).2
            = hstackTimes (hread h cref) := by
          unfold halloc hread
          exact getD_concat h _ []
        simp only [this]
      · rfl
    · rfl

theorem runInfomapSt_frame (oracle : List ℕ → List (ℕ × ℕ) → List (ℕ × ℕ))
    (r2 : ℚ) (h : Heap) (cref ncols : ℕ) (stopEvents : List (List ℚ))
    (d : List ℚ → List ℚ → ℚ) (eventMap : List ℤ) (lsing rm ri : Bool)
    (mtb : ℚ) (r : ℕ) (hr : r < List.length h) :
    hread (runInfomapSt oracle r2 h cref ncols stopEvents d eventMap lsing rm
      ri mtb).1 r = hread h r := by
  simp only [runInfomapSt]
  split
  · rfl
  · split
    · split
      · rfl
      · exact finishLabelsSt_frame _ _ _ _ _ _ _ _ _ r hr
    · exact finishLabelsSt_frame _ _ _ _ _ _ _ _ _ r hr

theorem runInfomapSt_agrees (oracle : List ℕ → List (ℕ × ℕ) → List (ℕ × ℕ))
    (r2 : ℚ) (h : Heap) (cref ncols : ℕ) (stopEvents : List (List ℚ))
    (d : List ℚ → List ℚ → ℚ) (eventMap : List ℤ) (lsing rm ri : Bool)
    (mtb : ℚ) :
    (runInfomapSt oracle r2 h cref ncols stopEvents d eventMap lsing rm ri
      mtb).2
      = runInfomap oracle r2 (hread h cref) ncols stopEvents d eventMap lsing
        rm ri mtb := by
  simp only [runInfomapSt, runInfomap]
  split
  · rfl
  · split
    · split
      · rfl
      · exact congrArg Except.ok (finishLabelsSt_agrees _ _ _ _ _ _ _ _ _)
    · exact congrArg Except.ok (finishLabelsSt_agrees _ _ _ _ _ _ _ _ _)

/-- C10: `best_partition` never mutates the caller's coordinate array: in the
store-passing model every reference that was live before the call still holds
the same values afterwards (the interval branch allocates a fresh array
instead of writing in place), and the value returned coincides with that of
the pure pipeline run on the read-out array. -/
theorem best_partition_no_mutation
    (oracle : List ℕ → List (ℕ × ℕ) → List (ℕ × ℕ)) (h : Heap)
    (cref ncols : ℕ) (r1 r2 : ℚ) (rm lsing : Bool) (minStay maxB : ℚ)
    (isHav : Bool) (d : List ℚ → List ℚ → ℚ) (ri : Bool) (minSize : ℕ)
    (r : ℕ) (hr : r < List.length h) :
    hread (bestPartitionSt oracle h cref ncols r1 r2 rm lsing minStay maxB
        isHav d ri minSize).1 r = hread h r ∧
    (bestPartitionSt oracle h cref ncols r1 r2 rm lsing minStay maxB isHav d
        ri minSize).2
      = bestPartition oracle (hread h cref) ncols r1 r2 rm lsing minStay maxB
        isHav d ri minSize := by
  unfold bestPartitionSt bestPartition
  split
  · exact ⟨rfl, rfl⟩
  · exact ⟨runInfomapSt_frame _ _ _ _ _ _ _ _ _ _ _ _ r hr,
      runInfomapSt_agrees _ _ _ _ _ _ _ _ _ _ _ _⟩

theorem best_partition_no_mutation_witness :
    hread (bestPartitionSt oracleTest [rowsTest] 0 2 1 21 false false 300
        86400 false dTest true 2).1 0 = hread [rowsTest] 0 ∧
    (bestPartitionSt oracleTest [rowsTest] 0 2 1 21 false false 300 86400
        false dTest true 2).2
      = bestPartition oracleTest (hread [rowsTest] 0) 2 1 21 false false 300
        86400 false dTest true 2 :=
  best_partition_no_mutation oracleTest [rowsTest] 0 2 1 21 false false 300
    86400 false dTest true 2 0 (by simp [List.length])

end Infostop
